import Mathlib

/-!
# tldsgen: the fetch / normalise / merge / sort pipeline of `generate/tldsgen/main.go`

A shallow embedding of `cleanTld`, `fetchFromURL` and `tldList`.

* Go strings holding UTF-8 text are Lean strings (sequences of code points); their bytes
  are the UTF-8 encoding (`bytes`), which Go's string comparison and the scanner's buffer
  limit look at.  Strings that are not UTF-8 text are outside the model.
* The Go standard library is modelled from its documented behaviour: `strings.ToLower`,
  `strings.HasPrefix`, `bufio.Scanner` with the default `ScanLines` split function and its
  `MaxScanTokenSize` buffer limit, `sort.Strings`.  What the library computes from data that
  is not part of the program (the Unicode case tables, the regular-expression engine, the
  HTTP transport) is a field of `World`.
* `fetchFromURL` is the sequence of channel sends one fetcher goroutine performs before it
  calls `wg.Done()`.
* `tldList` is a transition system over the goroutines it starts (two fetchers, the merger
  loop, and the coordinator that waits on the wait group), run along an explicit schedule.

Results.  Under every schedule a returned list is strictly ascending, its entries are
clean and were sent by a fetcher, an error is returned only after a failed fetch, and the
source locations are the two URLs in launch order.  The coordinator waits for the fetchers
only, not for the merger: a schedule exists in which it reads `anyError` and `tldSet` while
the merger still holds a value, and then an entry or a fetch error goes missing.  Under
every schedule in which the merger holds nothing at those reads the result is the fully
merged one (`tldList_of_quietReads`).
-/

namespace Tldsgen

/-! ## Strings -/

/-- Go `utf8.EncodeRune`: the UTF-8 encoding of a rune, one to four bytes. -/
def utf8.EncodeRune (r : Char) : List ℕ :=
  let n := r.toNat
  if n < 0x80 then [n]
  else if n < 0x800 then [0xC0 + n / 64, 0x80 + n % 64]
  else if n < 0x10000 then [0xE0 + n / 4096, 0x80 + n / 64 % 64, 0x80 + n % 64]
  else [0xF0 + n / 262144, 0x80 + n / 4096 % 64, 0x80 + n / 64 % 64, 0x80 + n % 64]

/-- The bytes of a string.  Go's `len` counts them and Go's `<` on strings is the
lexicographic order on them. -/
def bytes (s : String) : List ℕ := s.data.flatMap utf8.EncodeRune

/-- Go `unicode.ToLower`: ASCII letters are shifted, every rune above `MaxASCII` is looked up
in the case tables `tbl` (`unicode.To(unicode.LowerCase, r)`). -/
def unicode.ToLower (tbl : Char → Char) (r : Char) : Char :=
  if r.toNat ≤ 127 then
    if 'A'.toNat ≤ r.toNat ∧ r.toNat ≤ 'Z'.toNat then Char.ofNat (r.toNat + ('a'.toNat - 'A'.toNat))
    else r
  else tbl r

/-- Go `strings.ToLower`: `unicode.ToLower` mapped over the runes. -/
def strings.ToLower (tbl : Char → Char) (s : String) : String :=
  ⟨s.data.map (unicode.ToLower tbl)⟩

/-- Go `strings.HasPrefix`. -/
def strings.HasPrefix (s p : String) : Bool := p.data.isPrefixOf s.data

/-- A case-insensitive prefix check, as the specification words it: `p` is no longer than
`s` and agrees with the start of `s` rune by rune once both are lower-cased. -/
def hasPrefixIgnoreCase (tbl : Char → Char) (s p : String) : Bool :=
  (p.data.map (unicode.ToLower tbl)).isPrefixOf (s.data.map (unicode.ToLower tbl))

/-- Source `cleanTld` (main.go 35-41). -/
def cleanTld (tbl : Char → Char) (tld : String) : String :=
  let tld := strings.ToLower tbl tld
  if strings.HasPrefix tld "xn--" then "" else tld

/-! ## Library pieces used by `fetchFromURL` -/

/-- Go `bufio.MaxScanTokenSize`. -/
def bufio.MaxScanTokenSize : ℕ := 64 * 1024

/-- Go `bufio.dropCR`: one trailing carriage return is removed. -/
def bufio.dropCR (data : List Char) : List Char :=
  if data.getLast? = some '\r' then data.dropLast else data

/-- The newline-separated pieces of a body that `bufio.ScanLines` can turn into a token:
every newline-terminated piece, and the piece after the last newline when it is not empty. -/
def bufio.pieces (body : String) : List (List Char) :=
  let segs := List.splitOn '\n' body.data
  if segs.getLast? = some [] then segs.dropLast else segs

/-- The tokens a `bufio.Scanner` with the default split function and buffer yields for a
body that is read without error: the pieces in order, each with its carriage return
dropped, up to the first piece that does not fit the buffer (`Scan` then returns false
with `ErrTooLong`, which the program does not inspect). -/
def bufio.scanLines (body : String) : List String :=
  ((bufio.pieces body).takeWhile
    (fun l => decide ((bytes (String.mk l)).length < bufio.MaxScanTokenSize))).map
    (fun l => String.mk (bufio.dropCR l))

/-- A response of `http.Get` as far as the program looks at it. -/
structure Response where
  StatusCode : ℤ
  Status : String
  Body : String
deriving DecidableEq

/-- What the program takes from outside. -/
structure World where
  /-- Case tables: `unicode.To(unicode.LowerCase, r)` for runes above `MaxASCII`. -/
  caseTable : Char → Char
  /-- Regular expressions: `regexp.MustCompile(pat).FindString(line)`, the text of the
  leftmost match, or the empty string when there is none. -/
  FindString : String → String → String
  /-- Transport: `http.Get(url)`, a transport error (its text) or a response. -/
  Get : String → Except String Response

/-- A value sent on one of the two channels: a string on `tldChan`, an error on
`errChan`. -/
inductive Event where
  | tld (s : String)
  | err (msg : String)
deriving DecidableEq

/-- Body of the scanning loop of `fetchFromURL` (main.go 58-64) for one line: the send on
`tldChan`, if the line gets that far. -/
def scanStep (w : World) (pat line : String) : Option Event :=
  let tld := w.FindString pat line
  let tld := cleanTld w.caseTable tld
  if tld = "" then none else some (Event.tld tld)

/-- Source `fetchFromURL` (main.go 43-67): the channel sends of the goroutine, in order.
On every path they are followed by exactly one `wg.Done()`. -/
def fetchFromURL (w : World) (url pat : String) : List Event :=
  match w.Get url with
  | .error e => [Event.err ("could not fetch " ++ url ++ ": " ++ e)]
  | .ok resp =>
    if resp.StatusCode ≥ 400 then
      [Event.err ("could not fetch " ++ url ++ ": " ++ resp.Status)]
    else
      (bufio.scanLines resp.Body).filterMap (scanStep w pat)

/-! ## Regular expressions of the shape the program uses -/

/-- Leftmost match of `^[^c₁…cₙ]+$` in `line`: the whole line when it is not empty and holds
none of the excluded runes, and no match (the empty string) otherwise.  A negated class
matches every other rune, and without the `m` flag `^` and `$` are the two ends of the
text. -/
def negatedClassLine (excl : List Char) (line : String) : String :=
  if line.data ≠ [] ∧ line.data.all (fun c => decide (c ∉ excl)) then line else ""

/-- The excluded runes of a pattern written `^[^c₁…cₙ]+$` with plain runes `cᵢ`. -/
def parseNegatedClass (pat : String) : Option (List Char) :=
  match pat.data with
  | '^' :: '[' :: '^' :: rest =>
    let cs := rest.take (rest.length - 3)
    if rest.drop (rest.length - 3) = [']', '+', '$'] ∧ cs ≠ [] ∧
        cs.all (fun c => decide (c ∉ ['\\', ']', '[', '-', '^'])) then some cs else none
  | _ => none

/-- The regular-expression engine on patterns `^[^…]+$`, the only ones `tldList` passes.
Other patterns are outside this model and match nothing. -/
def regexpFindString (pat line : String) : String :=
  match parseNegatedClass pat with
  | some excl => negatedClassLine excl line
  | none => ""

/-! ## `tldList` -/

/-- Go `sort.Strings`: ascending in the byte-wise string order. -/
def sort.Strings (l : List String) : List String :=
  l.insertionSort (fun a b => bytes a ≤ bytes b)

/-- A `fetchFromURL` goroutine: the sends it still has to perform, and whether it has
called `wg.Done()`. -/
structure Fetcher where
  pending : List Event
  done : Bool
deriving DecidableEq

/-- The three results of `tldList`; a nil slice or nil error is `none`. -/
structure Ret where
  tlds : Option (List String)
  urls : Option (List String)
  err : Option String
deriving DecidableEq

/-- Where the goroutine that runs `tldList` stands: blocked in `wg.Wait()` (line 103),
before `if anyError` (105), before the loop over `tldSet` (109-112), or returned. -/
inductive Coord where
  | waiting
  | woken
  | collecting
  | returned (r : Ret)
deriving DecidableEq

/-- The shared state of one call of `tldList` once its goroutines are started. -/
structure State where
  /-- Counter of the wait group `wg`. -/
  wg : ℤ
  /-- Local `urls`. -/
  urls : List String
  /-- The `fetchFromURL` goroutines, in launch order. -/
  fetchers : List Fetcher
  /-- The merger goroutine: a value it has received in `select` (the channels are
  unbuffered, so the sender has moved on) whose case body it has not run yet. -/
  held : Option Event
  /-- Keys of the map `tldSet`. -/
  tldSet : List String
  /-- Local `anyError`. -/
  anyError : Bool
  coord : Coord
deriving DecidableEq

/-- One atomic action of one goroutine. -/
inductive Action where
  /-- Fetcher `i` sends its next value and the merger receives it (lines 50/64 with
  95/97). -/
  | send (i : ℕ)
  /-- Fetcher `i` calls `wg.Done()` (lines 51/66). -/
  | done (i : ℕ)
  /-- The merger runs the body of the case it received for (lines 96, 98-99). -/
  | merge
  /-- The call `wg.Wait()` returns (line 103). -/
  | wake
  /-- The coordinator evaluates `if anyError` (lines 105-107). -/
  | check
  /-- The coordinator ranges over `tldSet`, meeting the keys in the order `keys`, sorts
  and returns (lines 109-115). -/
  | collect (keys : List String)
deriving DecidableEq

/-- The error `tldList` returns on line 106. -/
def fetchError : String := "there were some errors while fetching the TLDs"

/-- Body of the `select` cases of the merger (lines 95-99). -/
def mergeCase (e : Event) (set : List String) (anyError : Bool) : List String × Bool :=
  match e with
  | .tld t => (set.insert t, anyError)
  | .err _ => (set, true)

/-- The transition function: `none` when the action cannot fire in the state. -/
def step (s : State) : Action → Option State
  | .send i =>
    match s.fetchers.get? i, s.held with
    | some ⟨e :: rest, false⟩, none =>
      some { s with fetchers := s.fetchers.set i ⟨rest, false⟩, held := some e }
    | _, _ => none
  | .done i =>
    match s.fetchers.get? i with
    | some ⟨[], false⟩ =>
      some { s with fetchers := s.fetchers.set i ⟨[], true⟩, wg := s.wg - 1 }
    | _ => none
  | .merge =>
    match s.held with
    | some e =>
      some { s with held := none, tldSet := (mergeCase e s.tldSet s.anyError).1,
                    anyError := (mergeCase e s.tldSet s.anyError).2 }
    | none => none
  | .wake =>
    if s.coord = .waiting ∧ s.wg = 0 then some { s with coord := .woken } else none
  | .check =>
    if s.coord = .woken then
      some { s with coord :=
        if s.anyError then .returned ⟨none, none, some fetchError⟩ else .collecting }
    else none
  | .collect keys =>
    if s.coord = .collecting ∧ keys.isPerm s.tldSet then
      some { s with coord := .returned ⟨some (sort.Strings keys), some s.urls, none⟩ }
    else none

/-- Run a schedule; `none` when one of its actions cannot fire. -/
def run (s : State) : List Action → Option State
  | [] => some s
  | a :: as => (step s a).bind (fun s' => run s' as)

/-- First source of `tldList` (main.go 85-86). -/
def ianaURL : String := "https://data.iana.org/TLD/tlds-alpha-by-domain.txt"

/-- Pattern of the first source. -/
def ianaPat : String := "^[^#]+$"

/-- Second source of `tldList` (main.go 87-88). -/
def pslURL : String := "https://publicsuffix.org/list/effective_tld_names.dat"

/-- Pattern of the second source. -/
def pslPat : String := "^[^/.]+$"

/-- The state `tldList` has built when it reaches `wg.Wait()` (main.go 77-102):
`wg.Add(2)`, both fetchers launched and their URLs appended in that order, an empty map, a
clear flag, the merger started.  What a fetcher will send is fixed by the answer it gets,
so each starts with its whole sequence of sends pending. -/
def tldList.start (w : World) : State :=
  { wg := 2
    urls := [ianaURL, pslURL]
    fetchers := [⟨fetchFromURL w ianaURL ianaPat, false⟩, ⟨fetchFromURL w pslURL pslPat, false⟩]
    held := none
    tldSet := []
    anyError := false
    coord := .waiting }

/-- The result held by a coordinator that has returned. -/
def Coord.result : Coord → Option Ret
  | .returned r => some r
  | _ => none

/-- Source `tldList` (main.go 75-116) under a schedule of its goroutines: what it returns,
or `none` when the schedule is not one of its executions or stops before the return. -/
def tldList (w : World) (sched : List Action) : Option Ret :=
  (run (tldList.start w) sched).bind (fun s => s.coord.result)


/-! ## The specification's words -/

/-- A fetch fails, in the specification's words: the transport returns an error, or the
response carries a client or server error status. -/
def fetchFailed (w : World) (url : String) : Bool :=
  match w.Get url with
  | .error _ => true
  | .ok resp => decide (resp.StatusCode ≥ 400)

/-- The underlying cause of a failed fetch: the transport error, or the status line. -/
def failureCause (w : World) (url : String) : Option String :=
  match w.Get url with
  | .error e => some e
  | .ok resp => if resp.StatusCode ≥ 400 then some resp.Status else none

/-- The lines of a body in the specification's words: the maximal substrings without a
newline. -/
def specLines (body : String) : List String :=
  (List.splitOn '\n' body.data).map String.mk

/-- The entries the specification expects from a body: extraction and normalisation applied
to each of its lines, in order. -/
def specEntries (w : World) (pat body : String) : List Event :=
  (specLines body).filterMap (scanStep w pat)

/-- What `cleanTld` lets through: a non-empty string that is its own lower-cased form and
does not begin with `xn--` in any letter case. -/
def Clean (tbl : Char → Char) (t : String) : Prop :=
  t ≠ "" ∧ strings.ToLower tbl t = t ∧ hasPrefixIgnoreCase tbl t "xn--" = false

/-- The claim that the coordinator reads `anyError` and `tldSet` only once the merger has
run the case body for every value it has received: whenever `if anyError` or the loop over
`tldSet` can fire, the merger holds no value.  (Both fire only after `wg.Wait()` has
returned, when every fetcher has called `wg.Done()`, so a value held then was delivered by a
fetcher that has signalled completion.) -/
def ReadsAfterMerge (w : World) : Prop :=
  ∀ (sched : List Action) (s s' : State) (a : Action),
    run (tldList.start w) sched = some s → step s a = some s' →
    (a = Action.check ∨ ∃ keys, a = Action.collect keys) → s.held = none

/-! ## The merger loop as a function, and a schedule without a race -/

/-- The merger loop (main.go 93-101) run over the values it receives, in that order. -/
def mergeAll (evs : List Event) (set : List String) (anyError : Bool) : List String × Bool :=
  evs.foldl (fun acc e => mergeCase e acc.1 acc.2) (set, anyError)

/-- Fetcher `i` sends `evs` one by one, and the merger runs its case body after each. -/
def sendAll (i : ℕ) : List Event → List Action
  | [] => []
  | _ :: evs => Action.send i :: Action.merge :: sendAll i evs

/-- What the merger has accumulated once it has merged everything both fetchers send. -/
def merged (w : World) : List String × Bool :=
  mergeAll (fetchFromURL w ianaURL ianaPat ++ fetchFromURL w pslURL pslPat) [] false

/-- The schedule in which each fetcher runs to completion with the merger keeping up, and
the coordinator goes on only then. -/
def quietSchedule (w : World) : List Action :=
  sendAll 0 (fetchFromURL w ianaURL ianaPat) ++ [Action.done 0] ++
    sendAll 1 (fetchFromURL w pslURL pslPat) ++ [Action.done 1] ++
    [Action.wake, Action.check] ++
    (if (merged w).2 then [] else [Action.collect (merged w).1])

/-- The return value once everything sent has been merged: lines 105-115 applied to the
fully merged map and flag. -/
def quietResult (w : World) : Ret :=
  if (merged w).2 then ⟨none, none, some fetchError⟩
  else ⟨some (sort.Strings (merged w).1), some [ianaURL, pslURL], none⟩

/-! ## Invariants of the transition system -/

/-- Every string in flight, stored or returned satisfies `P`; the keys of the map are
distinct; a returned list is strictly ascending. -/
structure Inv (P : String → Prop) (s : State) : Prop where
  pending : ∀ f ∈ s.fetchers, ∀ t, Event.tld t ∈ f.pending → P t
  held : ∀ t, s.held = some (Event.tld t) → P t
  stored : ∀ t ∈ s.tldSet, P t
  nodup : s.tldSet.Nodup
  ret : ∀ r l, s.coord = Coord.returned r → r.tlds = some l →
    l.Sorted (fun a b => bytes a < bytes b) ∧ ∀ t ∈ l, P t

/-- Errors in flight or recorded stem from a failed fetch (`F`); `urls` is fixed; a return
value has one of two shapes. -/
structure ErrInv (F : Prop) (s : State) : Prop where
  pending : ∀ f ∈ s.fetchers, ∀ m, Event.err m ∈ f.pending → F
  held : ∀ m, s.held = some (Event.err m) → F
  flag : s.anyError = true → F
  urls : s.urls = [ianaURL, pslURL]
  ret : ∀ r, s.coord = Coord.returned r →
    (r = ⟨none, none, some fetchError⟩ ∧ F) ∨ ∃ l, r = ⟨some l, some [ianaURL, pslURL], none⟩

/-- Nothing is lost on the way: each value a fetcher sends is pending, held or merged;
the wait-group counter counts the fetchers that have not called `wg.Done()`, which a
fetcher does only with nothing left to send; the coordinator is past `wg.Wait()` only
when the counter is zero. -/
def Full (w : World) (s : State) : Prop :=
  ∃ f0 f1 : Fetcher, s.fetchers = [f0, f1] ∧
    s.wg = (if f0.done then 0 else 1) + (if f1.done then 0 else 1) ∧
    (f0.done = true → f0.pending = []) ∧ (f1.done = true → f1.pending = []) ∧
    (s.coord ≠ Coord.waiting → s.wg = 0) ∧
    (∀ t, Event.tld t ∈ fetchFromURL w ianaURL ianaPat ++ fetchFromURL w pslURL pslPat →
      t ∈ s.tldSet ∨ s.held = some (Event.tld t) ∨
        Event.tld t ∈ f0.pending ∨ Event.tld t ∈ f1.pending) ∧
    (∀ m, Event.err m ∈ fetchFromURL w ianaURL ianaPat ++ fetchFromURL w pslURL pslPat →
      s.anyError = true ∨ s.held = some (Event.err m) ∨
        Event.err m ∈ f0.pending ∨ Event.err m ∈ f1.pending)

/-- The two reads of the coordinator: `if anyError` and the loop over `tldSet`. -/
def Action.isRead : Action → Bool
  | .check => true
  | .collect _ => true
  | _ => false

/-- Along the schedule from `s`, the merger holds no value whenever the coordinator reads
`anyError` or `tldSet`. -/
def quietReads (s : State) : List Action → Bool
  | [] => true
  | a :: as =>
    match step s a with
    | some s' => (!a.isRead || s.held.isNone) && quietReads s' as
    | none => true

/-- What holds along a schedule whose reads are quiet: nothing is lost, nothing is
invented, and a coordinator that has read has read the fully merged map and flag. -/
def QuietInv (w : World) (s : State) : Prop :=
  Full w s ∧
    Inv (fun t => Event.tld t ∈ fetchFromURL w ianaURL ianaPat ++ fetchFromURL w pslURL pslPat) s ∧
    ErrInv (fetchFailed w ianaURL = true ∨ fetchFailed w pslURL = true) s ∧
    (s.coord = Coord.collecting → s.held = none ∧ (merged w).2 = false) ∧
    ∀ r, s.coord = Coord.returned r → r = quietResult w

/-! ## Worlds used to evaluate the program -/

/-- Both sources answer; the first holds `COM`, `xn--abc` and `net`, the second `com` and
`org`. -/
def overlapWorld : World :=
  { caseTable := fun c => c
    FindString := regexpFindString
    Get := fun url =>
      if url = ianaURL then .ok ⟨200, "200 OK", "COM\nxn--abc\nnet\n"⟩
      else if url = pslURL then .ok ⟨200, "200 OK", "com\norg\n"⟩
      else .error "no such host" }

/-- The first source answers with `com` and `org`; the second fails with a connection
error. -/
def oneFailsWorld : World :=
  { caseTable := fun c => c
    FindString := regexpFindString
    Get := fun url =>
      if url = ianaURL then .ok ⟨200, "200 OK", "com\norg\n"⟩
      else .error "connection refused" }

/-- A source whose lines end in carriage return and newline. -/
def crlfWorld : World :=
  { caseTable := fun c => c
    FindString := regexpFindString
    Get := fun _ => .ok ⟨200, "200 OK", "com\r\nnet\r\n"⟩ }

/-- A source whose first line is `n` letters long, followed by the line `com`. -/
def longLineWorld (n : ℕ) : World :=
  { caseTable := fun c => c
    FindString := regexpFindString
    Get := fun _ => .ok ⟨200, "200 OK", String.mk (List.replicate n 'a' ++ '\n' :: "com".data)⟩ }

/-! ## Facts about strings -/

theorem EncodeRune_append_inj {c d : Char} {x y : List ℕ}
    (h : utf8.EncodeRune c ++ x = utf8.EncodeRune d ++ y) : c.toNat = d.toNat ∧ x = y := by
  unfold utf8.EncodeRune at h
  dsimp only at h
  split_ifs at h <;> simp only [List.cons_append, List.nil_append, List.cons.injEq] at h <;>
    first
    | (exfalso; omega)
    | (obtain ⟨h1, h2⟩ := h
       refine ⟨by omega, ?_⟩
       first
       | exact h2
       | exact h2.2
       | exact h2.2.2
       | exact h2.2.2.2)

theorem EncodeRune_append_ne_nil (c : Char) (x : List ℕ) : utf8.EncodeRune c ++ x ≠ [] := by
  intro h
  have hl : (utf8.EncodeRune c ++ x).length = 0 := by rw [h]; rfl
  unfold utf8.EncodeRune at hl
  dsimp only at hl
  split_ifs at hl <;> simp at hl

/-- Distinct strings have distinct bytes. -/
theorem bytes_injective {a b : String} (h : bytes a = bytes b) : a = b := by
  have key : ∀ l₁ l₂ : List Char,
      l₁.flatMap utf8.EncodeRune = l₂.flatMap utf8.EncodeRune → l₁ = l₂ := by
    intro l₁
    induction l₁ with
    | nil =>
      intro l₂ h
      cases l₂ with
      | nil => rfl
      | cons d ds =>
        simp only [List.flatMap_nil, List.flatMap_cons] at h
        exact absurd h.symm (EncodeRune_append_ne_nil d _)
    | cons c cs ih =>
      intro l₂ h
      cases l₂ with
      | nil =>
        simp only [List.flatMap_nil, List.flatMap_cons] at h
        exact absurd h (EncodeRune_append_ne_nil c _)
      | cons d ds =>
        simp only [List.flatMap_cons] at h
        obtain ⟨hcd, hrest⟩ := EncodeRune_append_inj h
        have hc : c = d := by
          apply Char.ext
          apply UInt32.ext
          exact hcd
        rw [hc, ih ds hrest]
  exact String.ext (key a.data b.data h)

theorem xn_lower (tbl : Char → Char) :
    ("xn--".data.map (unicode.ToLower tbl)) = "xn--".data := by
  simp [unicode.ToLower]

theorem hasPrefixIgnoreCase_xn (tbl : Char → Char) (t : String) :
    hasPrefixIgnoreCase tbl t "xn--" = strings.HasPrefix (strings.ToLower tbl t) "xn--" := by
  unfold hasPrefixIgnoreCase strings.HasPrefix strings.ToLower
  rw [xn_lower]

theorem ToLower_eq_empty (tbl : Char → Char) (t : String) :
    strings.ToLower tbl t = "" ↔ t = "" := by
  constructor
  · intro h
    have h1 : (strings.ToLower tbl t).data = [] := by rw [h]
    simp only [strings.ToLower, List.map_eq_nil_iff] at h1
    exact String.ext h1
  · rintro rfl
    rfl

theorem cleanTld_def (tbl : Char → Char) (t : String) :
    cleanTld tbl t =
        (if hasPrefixIgnoreCase tbl t "xn--" = true then "" else strings.ToLower tbl t) ∧
      (cleanTld tbl t = "" ↔ t = "" ∨ hasPrefixIgnoreCase tbl t "xn--" = true) := by
  rw [hasPrefixIgnoreCase_xn]
  refine ⟨rfl, ?_⟩
  unfold cleanTld
  dsimp only
  split
  · next hp => simp [hp]
  · next hp =>
    rw [ToLower_eq_empty]
    simp [hp]

theorem unicode_ToLower_idem (tbl : Char → Char)
    (htbl : ∀ c : Char, 127 < c.toNat → unicode.ToLower tbl (tbl c) = tbl c) (c : Char) :
    unicode.ToLower tbl (unicode.ToLower tbl c) = unicode.ToLower tbl c := by
  by_cases h : c.toNat ≤ 127
  · by_cases hu : 'A'.toNat ≤ c.toNat ∧ c.toNat ≤ 'Z'.toNat
    · have h1 : unicode.ToLower tbl c = Char.ofNat (c.toNat + 32) := by
        unfold unicode.ToLower
        rw [if_pos h, if_pos hu]
        rfl
      have h2 : (Char.ofNat (c.toNat + 32)).toNat = c.toNat + 32 := by
        obtain ⟨ha, hz⟩ := hu
        have ha' : 65 ≤ c.toNat := ha
        have hz' : c.toNat ≤ 90 := hz
        generalize c.toNat = n at ha' hz'
        interval_cases n <;> rfl
      rw [h1]
      have ha' : 65 ≤ c.toNat := hu.1
      have hz' : c.toNat ≤ 90 := hu.2
      unfold unicode.ToLower
      rw [h2]
      have e1 : c.toNat + 32 ≤ 127 := by omega
      have e2 : ¬ ('A'.toNat ≤ c.toNat + 32 ∧ c.toNat + 32 ≤ 'Z'.toNat) := by
        intro hh
        have : c.toNat + 32 ≤ 90 := hh.2
        omega
      rw [if_pos e1, if_neg e2]
    · have h1 : unicode.ToLower tbl c = c := by
        simp only [unicode.ToLower, h, hu, if_true, if_false]
      rw [h1, h1]
  · have h1 : unicode.ToLower tbl c = tbl c := by
      simp only [unicode.ToLower, h, if_false]
    rw [h1]
    exact htbl c (by omega)

theorem strings_ToLower_idem (tbl : Char → Char)
    (htbl : ∀ c : Char, 127 < c.toNat → unicode.ToLower tbl (tbl c) = tbl c) (s : String) :
    strings.ToLower tbl (strings.ToLower tbl s) = strings.ToLower tbl s := by
  unfold strings.ToLower
  simp only [List.map_map]
  congr 1
  apply List.map_congr_left
  intro c _
  exact unicode_ToLower_idem tbl htbl c

theorem cleanTld_clean (tbl : Char → Char)
    (htbl : ∀ c : Char, 127 < c.toNat → unicode.ToLower tbl (tbl c) = tbl c) (x : String)
    (hne : cleanTld tbl x ≠ "") : Clean tbl (cleanTld tbl x) := by
  unfold cleanTld at hne ⊢
  dsimp only at hne ⊢
  split at hne
  · exact absurd rfl hne
  · next hp =>
    rw [if_neg hp]
    refine ⟨hne, strings_ToLower_idem tbl htbl x, ?_⟩
    rw [hasPrefixIgnoreCase_xn, strings_ToLower_idem tbl htbl x]
    simpa using hp

/-! ## The order of `sort.Strings` -/

theorem sort_Strings_sorted (l : List String) :
    (sort.Strings l).Sorted (fun a b => bytes a ≤ bytes b) := by
  haveI : IsTotal String (fun a b => bytes a ≤ bytes b) :=
    ⟨fun a b => le_total (bytes a) (bytes b)⟩
  haveI : IsTrans String (fun a b => bytes a ≤ bytes b) :=
    ⟨fun _ _ _ hab hbc => le_trans hab hbc⟩
  exact List.sorted_insertionSort (fun a b => bytes a ≤ bytes b) l

theorem sort_Strings_perm (l : List String) : (sort.Strings l).Perm l :=
  List.perm_insertionSort (fun a b => bytes a ≤ bytes b) l

theorem sort_Strings_mem (l : List String) (t : String) : t ∈ sort.Strings l ↔ t ∈ l :=
  (sort_Strings_perm l).mem_iff

theorem sort_Strings_strict (l : List String) (h : l.Nodup) :
    (sort.Strings l).Sorted (fun a b => bytes a < bytes b) := by
  have hnd : (sort.Strings l).Nodup := (sort_Strings_perm l).nodup_iff.mpr h
  have hs := sort_Strings_sorted l
  unfold List.Sorted at hs ⊢
  unfold List.Nodup at hnd
  refine (hs.and hnd).imp ?_
  rintro a b ⟨hle, hne⟩
  exact lt_of_le_of_ne hle (fun hr => hne (bytes_injective hr))

/-- Sorting depends on the keys only, not on the order the map yields them in. -/
theorem sort_Strings_of_perm {l₁ l₂ : List String} (h : l₁.Perm l₂) :
    sort.Strings l₁ = sort.Strings l₂ := by
  haveI : IsAntisymm String (fun a b => bytes a ≤ bytes b) :=
    ⟨fun _ _ hab hba => bytes_injective (le_antisymm hab hba)⟩
  exact List.eq_of_perm_of_sorted
    (((sort_Strings_perm l₁).trans h).trans (sort_Strings_perm l₂).symm)
    (sort_Strings_sorted l₁) (sort_Strings_sorted l₂)

/-! ## Lines of a body -/

theorem splitOnP_no_sep {α : Type} (p : α → Bool) (xs : List α) :
    ∀ seg ∈ xs.splitOnP p, ∀ x ∈ seg, p x = false := by
  induction xs with
  | nil =>
    intro seg hseg x hx
    simp only [List.splitOnP_nil, List.mem_singleton] at hseg
    subst hseg
    cases hx
  | cons a xs ih =>
    intro seg hseg x hx
    rw [List.splitOnP_cons] at hseg
    by_cases hpa : p a = true
    · rw [if_pos hpa] at hseg
      rcases List.mem_cons.mp hseg with rfl | hseg'
      · cases hx
      · exact ih seg hseg' x hx
    · rw [if_neg hpa] at hseg
      cases hsp : xs.splitOnP p with
      | nil => exact absurd hsp (List.splitOnP_ne_nil p xs)
      | cons h t =>
        rw [hsp] at hseg ih
        simp only [List.modifyHead_cons, List.mem_cons] at hseg
        rcases hseg with rfl | hseg'
        · rcases List.mem_cons.mp hx with rfl | hx'
          · simpa using hpa
          · exact ih h (List.mem_cons_self _ _) x hx'
        · exact ih seg (List.mem_cons_of_mem _ hseg') x hx

theorem pieces_cases (body : String) :
    bufio.pieces body = List.splitOn '\n' body.data ∨
      bufio.pieces body ++ [[]] = List.splitOn '\n' body.data := by
  unfold bufio.pieces
  dsimp only
  split
  · next h =>
    right
    exact List.dropLast_append_getLast? _ h
  · left
    rfl

theorem scanLines_of_fit (body : String)
    (hfit : ∀ l ∈ bufio.pieces body, (bytes (String.mk l)).length < bufio.MaxScanTokenSize) :
    bufio.scanLines body = (bufio.pieces body).map (fun l => String.mk (bufio.dropCR l)) := by
  unfold bufio.scanLines
  congr 1
  rw [List.takeWhile_eq_self_iff]
  intro l hl
  simpa using hfit l hl

theorem bytes_replicate_length (n : ℕ) :
    (bytes (String.mk (List.replicate n 'a'))).length = n := by
  show ((List.replicate n 'a').flatMap utf8.EncodeRune).length = n
  induction n with
  | zero => rfl
  | succ k ih =>
    rw [List.replicate_succ, List.flatMap_cons, List.length_append, ih]
    show 1 + k = k + 1
    omega

theorem splitOn_long (n : ℕ) :
    List.splitOn '\n' (List.replicate n 'a' ++ '\n' :: "com".data) =
      [List.replicate n 'a', "com".data] := by
  unfold List.splitOn
  rw [List.splitOnP_first]
  · rfl
  · intro x hx
    rw [List.eq_of_mem_replicate hx]
    decide
  · rfl

/-! ## What one fetcher sends -/

theorem fetchFromURL_of_failed {w : World} {url : String} (pat : String)
    (h : fetchFailed w url = true) :
    ∃ cause, failureCause w url = some cause ∧
      fetchFromURL w url pat = [Event.err ("could not fetch " ++ url ++ ": " ++ cause)] := by
  unfold fetchFailed at h
  unfold failureCause fetchFromURL
  cases hg : w.Get url with
  | error e => exact ⟨e, rfl, rfl⟩
  | ok resp =>
    rw [hg] at h
    simp only [decide_eq_true_eq] at h
    exact ⟨resp.Status, by simp [h], by simp [h]⟩

theorem fetchFromURL_of_ok {w : World} {url : String} (pat : String)
    (h : fetchFailed w url = false) :
    ∃ resp, w.Get url = .ok resp ∧ resp.StatusCode < 400 ∧
      fetchFromURL w url pat = (bufio.scanLines resp.Body).filterMap (scanStep w pat) := by
  unfold fetchFailed at h
  unfold fetchFromURL
  cases hg : w.Get url with
  | error e => rw [hg] at h; cases h
  | ok resp =>
    rw [hg] at h
    simp only [decide_eq_false_iff_not, not_le] at h
    exact ⟨resp, rfl, h, by simp [h]⟩

theorem scanStep_eq_some {w : World} {pat line : String} {e : Event}
    (h : scanStep w pat line = some e) :
    e = Event.tld (cleanTld w.caseTable (w.FindString pat line)) ∧
      cleanTld w.caseTable (w.FindString pat line) ≠ "" := by
  unfold scanStep at h
  dsimp only at h
  split at h
  · cases h
  · next hne =>
    injection h with h
    exact ⟨h.symm, hne⟩

theorem scanStep_eq (w : World) (pat line : String) :
    scanStep w pat line =
      if w.FindString pat line = "" ∨
          hasPrefixIgnoreCase w.caseTable (w.FindString pat line) "xn--" = true then none
      else some (Event.tld (strings.ToLower w.caseTable (w.FindString pat line))) := by
  have hc := cleanTld_def w.caseTable (w.FindString pat line)
  unfold scanStep
  dsimp only
  by_cases h : w.FindString pat line = "" ∨
      hasPrefixIgnoreCase w.caseTable (w.FindString pat line) "xn--" = true
  · rw [if_pos h, if_pos (hc.2.mpr h)]
  · rw [if_neg h, if_neg (fun he => h (hc.2.mp he))]
    have hp : ¬ hasPrefixIgnoreCase w.caseTable (w.FindString pat line) "xn--" = true :=
      fun hp => h (Or.inr hp)
    rw [hc.1, if_neg hp]

/-- An error is sent only by a failed fetch. -/
theorem err_mem_fetchFromURL {w : World} {url pat m : String}
    (h : Event.err m ∈ fetchFromURL w url pat) : fetchFailed w url = true := by
  cases hf : fetchFailed w url with
  | true => rfl
  | false =>
    obtain ⟨resp, _, _, heq⟩ := fetchFromURL_of_ok pat hf
    rw [heq] at h
    obtain ⟨line, _, hl⟩ := List.mem_filterMap.mp h
    have := (scanStep_eq_some hl).1
    cases this

/-- A string is sent only by a successful fetch, for a line of its body. -/
theorem tld_mem_fetchFromURL {w : World} {url pat t : String} :
    Event.tld t ∈ fetchFromURL w url pat ↔
      ∃ resp, w.Get url = .ok resp ∧ resp.StatusCode < 400 ∧
        ∃ line ∈ bufio.scanLines resp.Body,
          t = cleanTld w.caseTable (w.FindString pat line) ∧ t ≠ "" := by
  constructor
  · intro h
    cases hf : fetchFailed w url with
    | true =>
      obtain ⟨cause, _, heq⟩ := fetchFromURL_of_failed pat hf
      rw [heq] at h
      simp at h
    | false =>
      obtain ⟨resp, hg, hlt, heq⟩ := fetchFromURL_of_ok pat hf
      rw [heq] at h
      obtain ⟨line, hline, hl⟩ := List.mem_filterMap.mp h
      have := scanStep_eq_some hl
      refine ⟨resp, hg, hlt, line, hline, ?_⟩
      have h1 := this.1
      injection h1 with h1
      subst h1
      exact ⟨rfl, this.2⟩
  · rintro ⟨resp, hg, hlt, line, hline, rfl, hne⟩
    have hf : fetchFailed w url = false := by
      unfold fetchFailed
      rw [hg]
      simp [hlt]
    obtain ⟨resp', hg', _, heq⟩ := fetchFromURL_of_ok pat hf
    rw [hg] at hg'
    injection hg' with hg'
    subst hg'
    rw [heq]
    refine List.mem_filterMap.mpr ⟨line, hline, ?_⟩
    unfold scanStep
    simp [hne]

theorem could_not_fetch_contains (url cause : String) :
    url.data <:+: ("could not fetch " ++ url ++ ": " ++ cause).data ∧
      cause.data <:+: ("could not fetch " ++ url ++ ": " ++ cause).data := by
  simp only [String.data_append]
  constructor
  · exact ⟨"could not fetch ".data, ": ".data ++ cause.data, by simp⟩
  · exact ⟨"could not fetch ".data ++ url.data ++ ": ".data, [], by simp⟩

/-- A line that does not fit the scanner's buffer ends the scan: nothing of it or after it
is sent. -/
theorem fetchFromURL_long_line (n : ℕ) (hn : bufio.MaxScanTokenSize ≤ n) :
    fetchFromURL (longLineWorld n) ianaURL ianaPat = [] ∧
      Event.tld "com" ∈ specEntries (longLineWorld n) ianaPat
        (String.mk (List.replicate n 'a' ++ '\n' :: "com".data)) := by
  constructor
  · have hp : bufio.pieces (String.mk (List.replicate n 'a' ++ '\n' :: "com".data)) =
        [List.replicate n 'a', "com".data] := by
      unfold bufio.pieces
      dsimp only
      rw [splitOn_long]
      rfl
    have hs : bufio.scanLines (String.mk (List.replicate n 'a' ++ '\n' :: "com".data)) = [] := by
      unfold bufio.scanLines
      rw [hp, List.takeWhile_cons, bytes_replicate_length]
      rw [if_neg (by simpa using hn)]
      rfl
    show (bufio.scanLines (String.mk (List.replicate n 'a' ++ '\n' :: "com".data))).filterMap
      (scanStep (longLineWorld n) ianaPat) = []
    rw [hs]
    rfl
  · unfold specEntries specLines
    show Event.tld "com" ∈ (List.map String.mk
      (List.splitOn '\n' (List.replicate n 'a' ++ '\n' :: "com".data))).filterMap
        (scanStep (longLineWorld n) ianaPat)
    rw [splitOn_long]
    refine List.mem_filterMap.mpr ⟨"com", by simp, ?_⟩
    have : scanStep (longLineWorld n) ianaPat "com" = scanStep (longLineWorld 0) ianaPat "com" :=
      rfl
    rw [this]
    decide

/-! ## What the merger accumulates -/

theorem mergeAll_cons (e : Event) (evs : List Event) (set : List String) (ae : Bool) :
    mergeAll (e :: evs) set ae = mergeAll evs (mergeCase e set ae).1 (mergeCase e set ae).2 :=
  rfl

theorem mergeAll_append (l₁ l₂ : List Event) (set : List String) (ae : Bool) :
    mergeAll (l₁ ++ l₂) set ae = mergeAll l₂ (mergeAll l₁ set ae).1 (mergeAll l₁ set ae).2 := by
  unfold mergeAll
  rw [List.foldl_append]

theorem mergeAll_flag (evs : List Event) (set : List String) (ae : Bool) :
    (mergeAll evs set ae).2 = true ↔ ae = true ∨ ∃ m, Event.err m ∈ evs := by
  induction evs generalizing set ae with
  | nil => simp [mergeAll]
  | cons e evs ih =>
    rw [mergeAll_cons, ih]
    cases e with
    | tld t => simp [mergeCase]
    | err m =>
      simp only [mergeCase, true_or, true_iff]
      exact Or.inr ⟨m, List.mem_cons_self _ _⟩

theorem mergeAll_mem (evs : List Event) (set : List String) (ae : Bool) (t : String) :
    t ∈ (mergeAll evs set ae).1 ↔ t ∈ set ∨ Event.tld t ∈ evs := by
  induction evs generalizing set ae with
  | nil => simp [mergeAll]
  | cons e evs ih =>
    rw [mergeAll_cons, ih]
    cases e with
    | tld t' =>
      simp only [mergeCase, List.mem_insert_iff, List.mem_cons, Event.tld.injEq]
      tauto
    | err m =>
      simp [mergeCase]

theorem mergeAll_nodup (evs : List Event) (set : List String) (ae : Bool) (h : set.Nodup) :
    (mergeAll evs set ae).1.Nodup := by
  induction evs generalizing set ae with
  | nil => simpa [mergeAll] using h
  | cons e evs ih =>
    rw [mergeAll_cons]
    apply ih
    cases e with
    | tld t' => exact h.insert
    | err m => exact h

/-- The merger's result does not depend on the order in which it receives the values: the
same keys and the same flag. -/
theorem mergeAll_perm {evs₁ evs₂ : List Event} (h : evs₁.Perm evs₂) (set : List String)
    (ae : Bool) (hset : set.Nodup) :
    (mergeAll evs₁ set ae).1.Perm (mergeAll evs₂ set ae).1 ∧
      (mergeAll evs₁ set ae).2 = (mergeAll evs₂ set ae).2 := by
  constructor
  · rw [List.perm_ext_iff_of_nodup (mergeAll_nodup _ _ _ hset) (mergeAll_nodup _ _ _ hset)]
    intro t
    rw [mergeAll_mem, mergeAll_mem, h.mem_iff]
  · rw [Bool.eq_iff_iff, mergeAll_flag, mergeAll_flag]
    simp only [h.mem_iff]

theorem merged_flag (w : World) :
    (merged w).2 = true ↔ fetchFailed w ianaURL = true ∨ fetchFailed w pslURL = true := by
  unfold merged
  rw [mergeAll_flag]
  constructor
  · rintro (h | ⟨m, hm⟩)
    · cases h
    · rcases List.mem_append.mp hm with h | h
      · exact Or.inl (err_mem_fetchFromURL h)
      · exact Or.inr (err_mem_fetchFromURL h)
  · intro h
    right
    rcases h with h | h
    · obtain ⟨cause, _, heq⟩ := fetchFromURL_of_failed ianaPat h
      exact ⟨_, List.mem_append_left _ (by rw [heq]; exact List.mem_singleton_self _)⟩
    · obtain ⟨cause, _, heq⟩ := fetchFromURL_of_failed pslPat h
      exact ⟨_, List.mem_append_right _ (by rw [heq]; exact List.mem_singleton_self _)⟩

/-! ## Schedules and invariants -/

/-- The states reachable from `s` are those some schedule leads to. -/
theorem run_append (s : State) (as bs : List Action) :
    run s (as ++ bs) = (run s as).bind (fun s' => run s' bs) := by
  induction as generalizing s with
  | nil => rfl
  | cons a as ih =>
    simp only [List.cons_append, run]
    cases step s a with
    | none => rfl
    | some s' => simpa using ih s'

/-- A property kept by every action holds after every schedule. -/
theorem run_induction {I : State → Prop}
    (hstep : ∀ s a s', I s → step s a = some s' → I s')
    {s s' : State} {as : List Action} (h0 : I s) (hr : run s as = some s') : I s' := by
  induction as generalizing s with
  | nil =>
    simp only [run, Option.some.injEq] at hr
    exact hr ▸ h0
  | cons a as ih =>
    simp only [run] at hr
    cases hsa : step s a with
    | none => simp [hsa] at hr
    | some s1 =>
      rw [hsa] at hr
      exact ih (hstep s a s1 h0 hsa) hr

/-- Unfolding `tldList`: it returns `r` when the schedule leads to a state whose coordinator
has returned `r`. -/
theorem tldList_eq_some {w : World} {sched : List Action} {r : Ret} :
    tldList w sched = some r ↔
      ∃ s, run (tldList.start w) sched = some s ∧ s.coord = Coord.returned r := by
  unfold tldList
  constructor
  · intro h
    cases hr : run (tldList.start w) sched with
    | none => rw [hr] at h; cases h
    | some s =>
      rw [hr] at h
      refine ⟨s, rfl, ?_⟩
      replace h : s.coord.result = some r := h
      cases hc : s.coord with
      | returned r' =>
        rw [hc] at h
        simp only [Coord.result, Option.some.injEq] at h
        rw [h]
      | waiting => rw [hc] at h; cases h
      | woken => rw [hc] at h; cases h
      | collecting => rw [hc] at h; cases h
  · rintro ⟨s, hr, hc⟩
    rw [hr]
    simp [hc, Coord.result]

theorem Inv_step {P : String → Prop} (s : State) (a : Action) (s' : State)
    (h : Inv P s) (hs : step s a = some s') : Inv P s' := by
  cases a with
  | send i =>
    simp only [Tldsgen.step] at hs
    split at hs
    · next e rest hf hh =>
      injection hs with hs
      subst hs
      have hmem : (⟨e :: rest, false⟩ : Fetcher) ∈ s.fetchers := List.get?_mem hf
      refine ⟨?_, ?_, h.stored, h.nodup, h.ret⟩
      · intro f hf' t ht
        rcases List.mem_or_eq_of_mem_set hf' with hf'' | rfl
        · exact h.pending f hf'' t ht
        · exact h.pending _ hmem t (List.mem_cons_of_mem _ ht)
      · intro t ht
        simp only [Option.some.injEq] at ht
        subst ht
        exact h.pending _ hmem t (List.mem_cons_self _ _)
    · cases hs
  | done i =>
    simp only [Tldsgen.step] at hs
    split at hs
    · next hf =>
      injection hs with hs
      subst hs
      refine ⟨?_, h.held, h.stored, h.nodup, h.ret⟩
      intro f hf' t ht
      rcases List.mem_or_eq_of_mem_set hf' with hf'' | rfl
      · exact h.pending f hf'' t ht
      · cases ht
    · cases hs
  | merge =>
    simp only [Tldsgen.step] at hs
    split at hs
    · next e he =>
      injection hs with hs
      subst hs
      cases e with
      | tld t =>
        refine ⟨h.pending, ?_, ?_, ?_, h.ret⟩
        · intro t' ht'
          cases ht'
        · intro t' ht'
          simp only [mergeCase] at ht'
          rcases List.mem_insert_iff.mp ht' with rfl | ht''
          · exact h.held _ he
          · exact h.stored _ ht''
        · simp only [mergeCase]
          exact h.nodup.insert
      | err m =>
        refine ⟨h.pending, ?_, h.stored, h.nodup, h.ret⟩
        intro t' ht'
        cases ht'
    · cases hs
  | wake =>
    simp only [Tldsgen.step] at hs
    split at hs
    · next hc =>
      injection hs with hs
      subst hs
      refine ⟨h.pending, h.held, h.stored, h.nodup, ?_⟩
      intro r l hr
      cases hr
    · cases hs
  | check =>
    simp only [Tldsgen.step] at hs
    split at hs
    · next hc =>
      injection hs with hs
      subst hs
      refine ⟨h.pending, h.held, h.stored, h.nodup, ?_⟩
      intro r l hr hl
      dsimp only at hr
      split at hr
      · injection hr with hr
        subst hr
        cases hl
      · cases hr
    · cases hs
  | collect keys =>
    simp only [Tldsgen.step] at hs
    split at hs
    · next hc =>
      injection hs with hs
      subst hs
      have hp : keys.Perm s.tldSet := List.isPerm_iff.mp hc.2
      refine ⟨h.pending, h.held, h.stored, h.nodup, ?_⟩
      intro r l hr hl
      injection hr with hr
      subst hr
      injection hl with hl
      subst hl
      refine ⟨sort_Strings_strict keys (hp.nodup_iff.mpr h.nodup), ?_⟩
      intro t ht
      exact h.stored t (hp.mem_iff.mp ((sort_Strings_mem keys t).mp ht))
    · cases hs

theorem start_Inv (w : World) (P : String → Prop)
    (h0 : ∀ t, Event.tld t ∈ fetchFromURL w ianaURL ianaPat → P t)
    (h1 : ∀ t, Event.tld t ∈ fetchFromURL w pslURL pslPat → P t) : Inv P (tldList.start w) := by
  refine ⟨?_, ?_, ?_, List.nodup_nil, ?_⟩
  · intro f hf t ht
    simp only [tldList.start, List.mem_cons, List.mem_singleton, List.not_mem_nil, or_false] at hf
    rcases hf with rfl | rfl
    · exact h0 t ht
    · exact h1 t ht
  · intro t ht
    cases ht
  · intro t ht
    cases ht
  · intro r l hr
    cases hr

/-- Under every schedule each returned entry was sent by one of the two fetchers: the race
can lose entries, it cannot invent them. -/
theorem tldList_entries_sent {w : World} {sched : List Action} {r : Ret} {l : List String}
    {e : String} (h : tldList w sched = some r) (hl : r.tlds = some l) (he : e ∈ l) :
    Event.tld e ∈ fetchFromURL w ianaURL ianaPat ∨ Event.tld e ∈ fetchFromURL w pslURL pslPat := by
  obtain ⟨s, hr, hc⟩ := tldList_eq_some.mp h
  have hinv : Inv (fun t => Event.tld t ∈ fetchFromURL w ianaURL ianaPat ∨
      Event.tld t ∈ fetchFromURL w pslURL pslPat) s :=
    run_induction Inv_step (start_Inv w _ (fun _ ht => Or.inl ht) (fun _ ht => Or.inr ht)) hr
  exact (hinv.ret r l hc hl).2 e he

theorem ErrInv_step {F : Prop} (s : State) (a : Action) (s' : State)
    (h : ErrInv F s) (hs : step s a = some s') : ErrInv F s' := by
  cases a with
  | send i =>
    simp only [Tldsgen.step] at hs
    split at hs
    · next e rest hf hh =>
      injection hs with hs
      subst hs
      have hmem : (⟨e :: rest, false⟩ : Fetcher) ∈ s.fetchers := List.get?_mem hf
      refine ⟨?_, ?_, h.flag, h.urls, h.ret⟩
      · intro f hf' t ht
        rcases List.mem_or_eq_of_mem_set hf' with hf'' | rfl
        · exact h.pending f hf'' t ht
        · exact h.pending _ hmem t (List.mem_cons_of_mem _ ht)
      · intro t ht
        simp only [Option.some.injEq] at ht
        subst ht
        exact h.pending _ hmem t (List.mem_cons_self _ _)
    · cases hs
  | done i =>
    simp only [Tldsgen.step] at hs
    split at hs
    · next hf =>
      injection hs with hs
      subst hs
      refine ⟨?_, h.held, h.flag, h.urls, h.ret⟩
      intro f hf' t ht
      rcases List.mem_or_eq_of_mem_set hf' with hf'' | rfl
      · exact h.pending f hf'' t ht
      · cases ht
    · cases hs
  | merge =>
    simp only [Tldsgen.step] at hs
    split at hs
    · next e he =>
      injection hs with hs
      subst hs
      cases e with
      | tld t =>
        refine ⟨h.pending, ?_, h.flag, h.urls, h.ret⟩
        intro t' ht'
        cases ht'
      | err m =>
        refine ⟨h.pending, ?_, ?_, h.urls, h.ret⟩
        · intro t' ht'
          cases ht'
        · intro _
          exact h.held m he
    · cases hs
  | wake =>
    simp only [Tldsgen.step] at hs
    split at hs
    · next hc =>
      injection hs with hs
      subst hs
      refine ⟨h.pending, h.held, h.flag, h.urls, ?_⟩
      intro r hr
      cases hr
    · cases hs
  | check =>
    simp only [Tldsgen.step] at hs
    split at hs
    · next hc =>
      injection hs with hs
      subst hs
      refine ⟨h.pending, h.held, h.flag, h.urls, ?_⟩
      intro r hr
      dsimp only at hr
      split at hr
      · next hae =>
        injection hr with hr
        subst hr
        exact Or.inl ⟨rfl, h.flag hae⟩
      · cases hr
    · cases hs
  | collect keys =>
    simp only [Tldsgen.step] at hs
    split at hs
    · next hc =>
      injection hs with hs
      subst hs
      refine ⟨h.pending, h.held, h.flag, h.urls, ?_⟩
      intro r hr
      injection hr with hr
      subst hr
      exact Or.inr ⟨_, by rw [h.urls]⟩
    · cases hs

theorem start_ErrInv (w : World) :
    ErrInv (fetchFailed w ianaURL = true ∨ fetchFailed w pslURL = true) (tldList.start w) := by
  refine ⟨?_, ?_, ?_, rfl, ?_⟩
  · intro f hf m hm
    simp only [tldList.start, List.mem_cons, List.mem_singleton, List.not_mem_nil, or_false] at hf
    rcases hf with rfl | rfl
    · exact Or.inl (err_mem_fetchFromURL hm)
    · exact Or.inr (err_mem_fetchFromURL hm)
  · intro m hm
    cases hm
  · intro hm
    cases hm
  · intro r hr
    cases hr

/-- Shape of every return value: the error with no lists, and then a fetch has failed, or
a list with the two source locations and no error. -/
theorem tldList_shape {w : World} {sched : List Action} {r : Ret}
    (h : tldList w sched = some r) :
    (r = ⟨none, none, some fetchError⟩ ∧
        (fetchFailed w ianaURL = true ∨ fetchFailed w pslURL = true)) ∨
      ∃ l, r = ⟨some l, some [ianaURL, pslURL], none⟩ := by
  obtain ⟨s, hr, hc⟩ := tldList_eq_some.mp h
  exact (run_induction ErrInv_step (start_ErrInv w) hr).ret r hc

/-! ## The result when nothing is read early -/

theorem run_sendAll_zero (l : List Event) :
    ∀ (wg : ℤ) (urls : List String) (f1 : Fetcher) (set : List String) (ae : Bool) (c : Coord),
      run ⟨wg, urls, [⟨l, false⟩, f1], none, set, ae, c⟩ (sendAll 0 l) =
        some ⟨wg, urls, [⟨[], false⟩, f1], none, (mergeAll l set ae).1, (mergeAll l set ae).2, c⟩ := by
  induction l with
  | nil => intros; rfl
  | cons e l ih =>
    intro wg urls f1 set ae c
    have := ih wg urls f1 (mergeCase e set ae).1 (mergeCase e set ae).2 c
    simpa [sendAll, run, step, mergeAll_cons] using this

theorem run_sendAll_one (l : List Event) :
    ∀ (wg : ℤ) (urls : List String) (f0 : Fetcher) (set : List String) (ae : Bool) (c : Coord),
      run ⟨wg, urls, [f0, ⟨l, false⟩], none, set, ae, c⟩ (sendAll 1 l) =
        some ⟨wg, urls, [f0, ⟨[], false⟩], none, (mergeAll l set ae).1, (mergeAll l set ae).2, c⟩ := by
  induction l with
  | nil => intros; rfl
  | cons e l ih =>
    intro wg urls f0 set ae c
    have := ih wg urls f0 (mergeCase e set ae).1 (mergeCase e set ae).2 c
    simpa [sendAll, run, step, mergeAll_cons] using this

/-- The quiet schedule is an execution of `tldList`, and it returns `quietResult`. -/
theorem tldList_quietSchedule (w : World) : tldList w (quietSchedule w) = some (quietResult w) := by
  unfold tldList quietSchedule tldList.start
  have hm : mergeAll (fetchFromURL w pslURL pslPat)
      (mergeAll (fetchFromURL w ianaURL ianaPat) [] false).1
      (mergeAll (fetchFromURL w ianaURL ianaPat) [] false).2 = merged w := by
    unfold merged
    rw [mergeAll_append]
  cases hflag : (merged w).2 with
  | true =>
    simp [run_append, run_sendAll_zero, run_sendAll_one, run, step, hm, hflag, quietResult,
      Coord.result]
  | false =>
    have hp : (merged w).1.isPerm (merged w).1 = true := List.isPerm_iff.mpr (List.Perm.refl _)
    simp [run_append, run_sendAll_zero, run_sendAll_one, run, step, hm, hflag, quietResult,
      Coord.result, hp]

/-- Along the quiet schedule a failed fetch gives the error and no list. -/
theorem quietResult_of_failed (w : World)
    (h : fetchFailed w ianaURL = true ∨ fetchFailed w pslURL = true) :
    quietResult w = ⟨none, none, some fetchError⟩ := by
  unfold quietResult
  rw [if_pos ((merged_flag w).mpr h)]

/-- Along the quiet schedule two successful fetches give the list that holds exactly the
non-empty normalised tokens of the lines of the two bodies. -/
theorem quietResult_of_ok (w : World) (h0 : fetchFailed w ianaURL = false)
    (h1 : fetchFailed w pslURL = false) :
    ∃ l, quietResult w = ⟨some l, some [ianaURL, pslURL], none⟩ ∧
      l.Sorted (fun a b => bytes a < bytes b) ∧
      ∀ e, e ∈ l ↔ e ≠ "" ∧ ∃ src ∈ [(ianaURL, ianaPat), (pslURL, pslPat)],
        ∃ resp, w.Get src.1 = .ok resp ∧ ∃ line ∈ bufio.scanLines resp.Body,
          e = cleanTld w.caseTable (w.FindString src.2 line) := by
  have hflag : ¬ (merged w).2 = true := by
    rw [merged_flag, h0, h1]
    simp
  refine ⟨sort.Strings (merged w).1, ?_, ?_, ?_⟩
  · unfold quietResult
    rw [if_neg hflag]
  · exact sort_Strings_strict _ (mergeAll_nodup _ _ _ List.nodup_nil)
  · intro e
    rw [sort_Strings_mem]
    unfold merged
    rw [mergeAll_mem, List.mem_append, tld_mem_fetchFromURL, tld_mem_fetchFromURL]
    constructor
    · rintro (h | ⟨resp, hg, _, line, hl, he, hne⟩ | ⟨resp, hg, _, line, hl, he, hne⟩)
      · cases h
      · exact ⟨hne, (ianaURL, ianaPat), by simp, resp, hg, line, hl, he⟩
      · exact ⟨hne, (pslURL, pslPat), by simp, resp, hg, line, hl, he⟩
    · rintro ⟨hne, src, hsrc, resp, hg, line, hl, he⟩
      right
      simp only [List.mem_cons, List.mem_singleton, List.not_mem_nil, or_false] at hsrc
      rcases hsrc with rfl | rfl
      · left
        refine ⟨resp, hg, ?_, line, hl, he, hne⟩
        have := h0
        unfold fetchFailed at this
        rw [hg] at this
        simpa using this
      · right
        refine ⟨resp, hg, ?_, line, hl, he, hne⟩
        have := h1
        unfold fetchFailed at this
        rw [hg] at this
        simpa using this

theorem start_Full (w : World) : Full w (tldList.start w) := by
  refine ⟨_, _, rfl, rfl, ?_, ?_, ?_, ?_, ?_⟩
  · intro h; cases h
  · intro h; cases h
  · intro h; exact absurd rfl h
  · intro t ht
    rcases List.mem_append.mp ht with h | h
    · exact Or.inr (Or.inr (Or.inl h))
    · exact Or.inr (Or.inr (Or.inr h))
  · intro m hm
    rcases List.mem_append.mp hm with h | h
    · exact Or.inr (Or.inr (Or.inl h))
    · exact Or.inr (Or.inr (Or.inr h))

theorem Full_step (w : World) (s : State) (a : Action) (s' : State)
    (h : Full w s) (hs : step s a = some s') : Full w s' := by
  obtain ⟨f0, f1, hf, hwg, hd0, hd1, haw, hT, hE⟩ := h
  cases a with
  | send i =>
    simp only [Tldsgen.step, hf] at hs
    split at hs
    · next e rest hget hheld =>
      injection hs with hs
      subst hs
      match i, hget with
      | 0, hget =>
        simp only [List.get?_cons_zero, Option.some.injEq] at hget
        subst hget
        refine ⟨⟨rest, false⟩, f1, by simp, hwg, by simp, hd1, haw, ?_, ?_⟩
        · intro t ht
          rcases hT t ht with h | h | h | h
          · exact Or.inl h
          · rw [hheld] at h; cases h
          · rcases List.mem_cons.mp h with h | h
            · exact Or.inr (Or.inl (by rw [h]))
            · exact Or.inr (Or.inr (Or.inl h))
          · exact Or.inr (Or.inr (Or.inr h))
        · intro m hm
          rcases hE m hm with h | h | h | h
          · exact Or.inl h
          · rw [hheld] at h; cases h
          · rcases List.mem_cons.mp h with h | h
            · exact Or.inr (Or.inl (by rw [h]))
            · exact Or.inr (Or.inr (Or.inl h))
          · exact Or.inr (Or.inr (Or.inr h))
      | 1, hget =>
        simp only [List.get?_cons_succ, List.get?_cons_zero, Option.some.injEq] at hget
        subst hget
        refine ⟨f0, ⟨rest, false⟩, by simp, hwg, hd0, by simp, haw, ?_, ?_⟩
        · intro t ht
          rcases hT t ht with h | h | h | h
          · exact Or.inl h
          · rw [hheld] at h; cases h
          · exact Or.inr (Or.inr (Or.inl h))
          · rcases List.mem_cons.mp h with h | h
            · exact Or.inr (Or.inl (by rw [h]))
            · exact Or.inr (Or.inr (Or.inr h))
        · intro m hm
          rcases hE m hm with h | h | h | h
          · exact Or.inl h
          · rw [hheld] at h; cases h
          · exact Or.inr (Or.inr (Or.inl h))
          · rcases List.mem_cons.mp h with h | h
            · exact Or.inr (Or.inl (by rw [h]))
            · exact Or.inr (Or.inr (Or.inr h))
      | n + 2, hget =>
        simp at hget
    · cases hs
  | done i =>
    simp only [Tldsgen.step, hf] at hs
    split at hs
    · next hget =>
      injection hs with hs
      subst hs
      match i, hget with
      | 0, hget =>
        simp only [List.get?_cons_zero, Option.some.injEq] at hget
        subst hget
        refine ⟨⟨[], true⟩, f1, by simp, ?_, by simp, hd1, ?_, ?_, ?_⟩
        · simp only [if_true] at hwg ⊢
          simp only [Bool.false_eq_true, if_false] at hwg
          rw [hwg]
          ring
        · intro hc
          have := haw hc
          simp only [Bool.false_eq_true, if_false] at hwg
          split at hwg <;> omega
        · intro t ht
          rcases hT t ht with h | h | h | h
          · exact Or.inl h
          · exact Or.inr (Or.inl h)
          · cases h
          · exact Or.inr (Or.inr (Or.inr h))
        · intro m hm
          rcases hE m hm with h | h | h | h
          · exact Or.inl h
          · exact Or.inr (Or.inl h)
          · cases h
          · exact Or.inr (Or.inr (Or.inr h))
      | 1, hget =>
        simp only [List.get?_cons_succ, List.get?_cons_zero, Option.some.injEq] at hget
        subst hget
        refine ⟨f0, ⟨[], true⟩, by simp, ?_, hd0, by simp, ?_, ?_, ?_⟩
        · simp only [if_true] at hwg ⊢
          simp only [Bool.false_eq_true, if_false] at hwg
          rw [hwg]
          ring
        · intro hc
          have := haw hc
          simp only [Bool.false_eq_true, if_false] at hwg
          split at hwg <;> omega
        · intro t ht
          rcases hT t ht with h | h | h | h
          · exact Or.inl h
          · exact Or.inr (Or.inl h)
          · exact Or.inr (Or.inr (Or.inl h))
          · cases h
        · intro m hm
          rcases hE m hm with h | h | h | h
          · exact Or.inl h
          · exact Or.inr (Or.inl h)
          · exact Or.inr (Or.inr (Or.inl h))
          · cases h
      | n + 2, hget =>
        simp at hget
    · cases hs
  | merge =>
    simp only [Tldsgen.step] at hs
    split at hs
    · next e he =>
      injection hs with hs
      subst hs
      refine ⟨f0, f1, hf, hwg, hd0, hd1, haw, ?_, ?_⟩
      · intro t ht
        rcases hT t ht with h | h | h
        · left
          cases e with
          | tld t' => exact List.mem_insert_iff.mpr (Or.inr h)
          | err m => exact h
        · left
          rw [he] at h
          injection h with h
          subst h
          exact List.mem_insert_iff.mpr (Or.inl rfl)
        · exact Or.inr (Or.inr h)
      · intro m hm
        rcases hE m hm with h | h | h
        · left
          cases e with
          | tld t' => exact h
          | err m' => rfl
        · left
          rw [he] at h
          injection h with h
          subst h
          rfl
        · exact Or.inr (Or.inr h)
    · cases hs
  | wake =>
    simp only [Tldsgen.step] at hs
    split at hs
    · next hc =>
      injection hs with hs
      subst hs
      exact ⟨f0, f1, hf, hwg, hd0, hd1, fun _ => hc.2, hT, hE⟩
    · cases hs
  | check =>
    simp only [Tldsgen.step] at hs
    split at hs
    · next hc =>
      injection hs with hs
      subst hs
      have hw : s.wg = 0 := haw (by rw [hc]; intro h; cases h)
      exact ⟨f0, f1, hf, hwg, hd0, hd1, fun _ => hw, hT, hE⟩
    · cases hs
  | collect keys =>
    simp only [Tldsgen.step] at hs
    split at hs
    · next hc =>
      injection hs with hs
      subst hs
      have hw : s.wg = 0 := haw (by rw [hc.1]; intro h; cases h)
      exact ⟨f0, f1, hf, hwg, hd0, hd1, fun _ => hw, hT, hE⟩
    · cases hs

theorem run_induction_quiet {I : State → Prop}
    (hstep : ∀ s a s', I s → (a.isRead = true → s.held = none) → step s a = some s' → I s')
    {s s' : State} {as : List Action} (h0 : I s) (hr : run s as = some s')
    (hq : quietReads s as = true) : I s' := by
  induction as generalizing s with
  | nil =>
    simp only [run, Option.some.injEq] at hr
    exact hr ▸ h0
  | cons a as ih =>
    simp only [run] at hr
    cases hsa : step s a with
    | none => simp [hsa] at hr
    | some s1 =>
      rw [hsa] at hr
      simp only [quietReads, hsa, Bool.and_eq_true, Bool.or_eq_true, Bool.not_eq_true',
        Option.isNone_iff_eq_none] at hq
      refine ih (hstep s a s1 h0 ?_ hsa) hr hq.2
      intro hread
      rcases hq.1 with h | h
      · rw [hread] at h; cases h
      · exact h

/-- Once `wg.Wait()` has returned, both fetchers have nothing left to send. -/
theorem Full_drained {w : World} {s : State} (h : Full w s) (hc : s.coord ≠ Coord.waiting) :
    ∃ f0 f1 : Fetcher, s.fetchers = [f0, f1] ∧ f0.done = true ∧ f1.done = true ∧
      f0.pending = [] ∧ f1.pending = [] ∧
      (∀ t, Event.tld t ∈ fetchFromURL w ianaURL ianaPat ++ fetchFromURL w pslURL pslPat →
        t ∈ s.tldSet ∨ s.held = some (Event.tld t)) ∧
      (∀ m, Event.err m ∈ fetchFromURL w ianaURL ianaPat ++ fetchFromURL w pslURL pslPat →
        s.anyError = true ∨ s.held = some (Event.err m)) := by
  obtain ⟨f0, f1, hf, hwg, hd0, hd1, haw, hT, hE⟩ := h
  have hw := haw hc
  rw [hw] at hwg
  have h0 : f0.done = true := by
    cases hd : f0.done with
    | true => rfl
    | false => rw [hd] at hwg; simp only [Bool.false_eq_true, if_false] at hwg; split at hwg <;> omega
  have h1 : f1.done = true := by
    cases hd : f1.done with
    | true => rfl
    | false => rw [hd] at hwg; simp only [Bool.false_eq_true, if_false] at hwg; split at hwg <;> omega
  refine ⟨f0, f1, hf, h0, h1, hd0 h0, hd1 h1, ?_, ?_⟩
  · intro t ht
    rcases hT t ht with h | h | h | h
    · exact Or.inl h
    · exact Or.inr h
    · rw [hd0 h0] at h; cases h
    · rw [hd1 h1] at h; cases h
  · intro m hm
    rcases hE m hm with h | h | h | h
    · exact Or.inl h
    · exact Or.inr h
    · rw [hd0 h0] at h; cases h
    · rw [hd1 h1] at h; cases h

theorem start_QuietInv (w : World) : QuietInv w (tldList.start w) := by
  refine ⟨start_Full w, ?_, start_ErrInv w, ?_, ?_⟩
  · exact start_Inv w _ (fun _ ht => List.mem_append_left _ ht)
      (fun _ ht => List.mem_append_right _ ht)
  · intro h; cases h
  · intro r h; cases h

theorem QuietInv_step (w : World) (s : State) (a : Action) (s' : State)
    (h : QuietInv w s) (hq : a.isRead = true → s.held = none) (hs : step s a = some s') :
    QuietInv w s' := by
  obtain ⟨hfull, hinv, herr, hcol, hret⟩ := h
  refine ⟨Full_step w s a s' hfull hs, Inv_step s a s' hinv hs, ErrInv_step s a s' herr hs,
    ?_, ?_⟩
  · -- the coordinator stands before the loop
    cases a with
    | send i =>
      intro hc
      exfalso
      simp only [Tldsgen.step] at hs
      split at hs
      · next e rest hget hheld =>
        injection hs with hs
        subst hs
        obtain ⟨f0, f1, hf, h0, h1, hp0, hp1, _, _⟩ :=
          Full_drained hfull (by rw [show s.coord = Coord.collecting from hc]; intro h; cases h)
        rw [hf] at hget
        match i, hget with
        | 0, hget =>
          simp only [List.get?_cons_zero, Option.some.injEq] at hget
          rw [hget] at hp0
          cases hp0
        | 1, hget =>
          simp only [List.get?_cons_succ, List.get?_cons_zero, Option.some.injEq] at hget
          rw [hget] at hp1
          cases hp1
        | n + 2, hget => simp at hget
      · cases hs
    | done i =>
      simp only [Tldsgen.step] at hs
      split at hs
      · injection hs with hs
        subst hs
        exact hcol
      · cases hs
    | merge =>
      simp only [Tldsgen.step] at hs
      split at hs
      · injection hs with hs
        subst hs
        intro hc
        exact ⟨rfl, (hcol hc).2⟩
      · cases hs
    | wake =>
      simp only [Tldsgen.step] at hs
      split at hs
      · injection hs with hs
        subst hs
        intro hc
        cases hc
      · cases hs
    | check =>
      have hheld := hq rfl
      simp only [Tldsgen.step] at hs
      split at hs
      · next hc =>
        injection hs with hs
        subst hs
        intro hcol'
        dsimp only at hcol'
        refine ⟨hheld, ?_⟩
        cases hae : s.anyError with
        | true => rw [hae] at hcol'; simp at hcol'
        | false =>
          obtain ⟨f0, f1, hf, h0, h1, hp0, hp1, _, hE⟩ :=
            Full_drained hfull (by rw [hc]; intro h; cases h)
          cases hm : (merged w).2 with
          | false => rfl
          | true =>
            exfalso
            have := (mergeAll_flag _ _ _).mp hm
            rcases this with h | ⟨m, hm'⟩
            · cases h
            · rcases hE m hm' with h | h
              · rw [hae] at h; cases h
              · rw [hheld] at h; cases h
      · cases hs
    | collect keys =>
      simp only [Tldsgen.step] at hs
      split at hs
      · injection hs with hs
        subst hs
        intro hc
        cases hc
      · cases hs
  · -- the coordinator has returned
    cases a with
    | send i =>
      simp only [Tldsgen.step] at hs
      split at hs
      · injection hs with hs
        subst hs
        exact hret
      · cases hs
    | done i =>
      simp only [Tldsgen.step] at hs
      split at hs
      · injection hs with hs
        subst hs
        exact hret
      · cases hs
    | merge =>
      simp only [Tldsgen.step] at hs
      split at hs
      · injection hs with hs
        subst hs
        exact hret
      · cases hs
    | wake =>
      simp only [Tldsgen.step] at hs
      split at hs
      · injection hs with hs
        subst hs
        intro r hr
        cases hr
      · cases hs
    | check =>
      simp only [Tldsgen.step] at hs
      split at hs
      · next hc =>
        injection hs with hs
        subst hs
        intro r hr
        dsimp only at hr
        split at hr
        · next hae =>
          injection hr with hr
          subst hr
          exact (quietResult_of_failed w (herr.flag hae)).symm
        · cases hr
      · cases hs
    | collect keys =>
      have hheld := hq rfl
      simp only [Tldsgen.step] at hs
      split at hs
      · next hc =>
        injection hs with hs
        subst hs
        intro r hr
        injection hr with hr
        subst hr
        have hflag := (hcol hc.1).2
        obtain ⟨f0, f1, hf, h0, h1, hp0, hp1, hT, _⟩ :=
          Full_drained hfull (by rw [hc.1]; intro h; cases h)
        have hp : keys.Perm (merged w).1 := by
          refine (List.isPerm_iff.mp hc.2).trans ?_
          have hnd : (merged w).1.Nodup := mergeAll_nodup _ _ _ List.nodup_nil
          rw [List.perm_ext_iff_of_nodup hinv.nodup hnd]
          intro t
          unfold merged
          rw [mergeAll_mem]
          constructor
          · intro ht
            exact Or.inr (hinv.stored t ht)
          · rintro (ht | ht)
            · cases ht
            · rcases hT t ht with h | h
              · exact h
              · rw [hheld] at h; cases h
        unfold quietResult
        rw [hflag, herr.urls, sort_Strings_of_perm hp]
        rfl
      · cases hs

/-- With the synchronisation the specification asks for, the result is determined: under
every schedule in which the merger holds no value when the coordinator reads, `tldList`
returns what lines 105-115 make of the fully merged map and flag. -/
theorem tldList_of_quietReads {w : World} {sched : List Action} {r : Ret}
    (h : tldList w sched = some r) (hq : quietReads (tldList.start w) sched = true) :
    r = quietResult w := by
  obtain ⟨s, hr, hc⟩ := tldList_eq_some.mp h
  exact (run_induction_quiet (QuietInv_step w) (start_QuietInv w) hr hq).2.2.2.2 r hc

/-- If the coordinator read only after the merger had finished, as the specification asks,
every schedule would have quiet reads. -/
theorem quietReads_of_ReadsAfterMerge {w : World} (h : ReadsAfterMerge w)
    (sched : List Action) : quietReads (tldList.start w) sched = true := by
  have key : ∀ (as pre : List Action) (s : State),
      run (tldList.start w) pre = some s → quietReads s as = true := by
    intro as
    induction as with
    | nil => intros; rfl
    | cons a as ih =>
      intro pre s hpre
      cases hsa : step s a with
      | none => simp [quietReads, hsa]
      | some s1 =>
        have hnext : run (tldList.start w) (pre ++ [a]) = some s1 := by
          rw [run_append, hpre]
          simp [run, hsa]
        simp only [quietReads, hsa, Bool.and_eq_true, Bool.or_eq_true, Bool.not_eq_true',
          Option.isNone_iff_eq_none]
        refine ⟨?_, ih (pre ++ [a]) s1 hnext⟩
        cases a with
        | check => exact Or.inr (h pre s s1 Action.check hpre hsa (Or.inl rfl))
        | collect keys =>
          exact Or.inr (h pre s s1 (Action.collect keys) hpre hsa (Or.inr ⟨keys, rfl⟩))
        | send i => exact Or.inl rfl
        | done i => exact Or.inl rfl
        | merge => exact Or.inl rfl
        | wake => exact Or.inl rfl
  exact key sched [] (tldList.start w) rfl

/-! ## Claims about `cleanTld` and `fetchFromURL` -/

/-- C3. `cleanTld` returns the lower-cased form of its argument, except that it returns the
empty string when that form begins with `xn--`; this test is the case-insensitive prefix
check on the argument itself.  The result is empty exactly for an empty argument or one
with that prefix. -/
theorem cleanTld_lowercases_unless_encoded (tbl : Char → Char) (t : String) :
    cleanTld tbl t =
        (if strings.HasPrefix (strings.ToLower tbl t) "xn--" then "" else strings.ToLower tbl t) ∧
      strings.HasPrefix (strings.ToLower tbl t) "xn--" = hasPrefixIgnoreCase tbl t "xn--" ∧
      (cleanTld tbl t = "" ↔ t = "" ∨ hasPrefixIgnoreCase tbl t "xn--" = true) := by
  refine ⟨rfl, (hasPrefixIgnoreCase_xn tbl t).symm, ?_⟩
  rw [hasPrefixIgnoreCase_xn]
  unfold cleanTld
  dsimp only
  split
  · next hp => simp [hp]
  · next hp =>
    rw [ToLower_eq_empty]
    simp [hp]

/-- C8. `fetchFromURL` sends an error exactly when the fetch failed (transport error, or a
status code of 400 and above).  It then sends that one error and nothing else, the message
holds the source location and the cause, and the body of the response plays no part; a
fetch that did not fail sends no error. -/
theorem fetchFromURL_failure (w : World) (url pat : String) :
    (fetchFailed w url = true ↔ ∃ m, Event.err m ∈ fetchFromURL w url pat) ∧
      (fetchFailed w url = true →
        ∃ cause msg, failureCause w url = some cause ∧
          fetchFromURL w url pat = [Event.err msg] ∧
          url.data <:+: msg.data ∧ cause.data <:+: msg.data) ∧
      (∀ resp body, w.Get url = .ok resp → resp.StatusCode ≥ 400 →
        fetchFromURL
            { w with Get := fun u => if u = url then .ok { resp with Body := body } else w.Get u }
            url pat = fetchFromURL w url pat) ∧
      (fetchFailed w url = false → ∀ m, Event.err m ∉ fetchFromURL w url pat) := by
  refine ⟨⟨?_, ?_⟩, ?_, ?_, ?_⟩
  · intro hf
    obtain ⟨cause, _, heq⟩ := fetchFromURL_of_failed pat hf
    exact ⟨_, by rw [heq]; exact List.mem_singleton_self _⟩
  · rintro ⟨m, hm⟩
    exact err_mem_fetchFromURL hm
  · intro hf
    obtain ⟨cause, hc, heq⟩ := fetchFromURL_of_failed pat hf
    exact ⟨cause, _, hc, heq, could_not_fetch_contains url cause⟩
  · intro resp body hg hs
    unfold fetchFromURL
    simp [hg, hs]
  · intro hf m hm
    rw [err_mem_fetchFromURL hm] at hf
    cases hf

/-- C10, the claim as stated, refuted at two bodies.  For `com\r\nnet\r\n` and the pattern
of the first source the program sends `com` and `net`, whereas the maximal newline-free
substrings are `com\r`, `net\r` and the empty string, whose normalised tokens are `com\r`
and `net\r`.  For a first line of 65536 letters followed by the line `com` the program
sends nothing, whereas `com` is the normalised token of a line. -/
theorem fetchFromURL_differs_from_lines :
    (fetchFromURL crlfWorld ianaURL ianaPat = [Event.tld "com", Event.tld "net"] ∧
        specEntries crlfWorld ianaPat "com\r\nnet\r\n" =
          [Event.tld "com\r", Event.tld "net\r"]) ∧
      (fetchFromURL (longLineWorld 65536) ianaURL ianaPat = [] ∧
        Event.tld "com" ∈ specEntries (longLineWorld 65536) ianaPat
          (String.mk (List.replicate 65536 'a' ++ '\n' :: "com".data))) :=
  ⟨by decide, fetchFromURL_long_line 65536 (by decide)⟩

/-- C10, amended.  For a body fetched successfully, each of whose newline-separated pieces
fits the scanner's buffer, `fetchFromURL` sends, in line order, the normalised token of
each line that extraction matches and normalisation accepts, where a line is a maximal
newline-free substring of the body with one trailing carriage return dropped (the empty
remainder after a final newline is no line).  Other lines send nothing, no error is sent,
and an empty body sends nothing at all. -/
theorem fetchFromURL_entries (w : World) (url pat : String) (resp : Response)
    (hget : w.Get url = .ok resp) (hok : resp.StatusCode < 400)
    (hfit : ∀ l ∈ bufio.pieces resp.Body,
      (bytes (String.mk l)).length < bufio.MaxScanTokenSize) :
    fetchFromURL w url pat =
        ((bufio.pieces resp.Body).map (fun l => String.mk (bufio.dropCR l))).filterMap
          (fun line =>
            if w.FindString pat line = "" ∨
                hasPrefixIgnoreCase w.caseTable (w.FindString pat line) "xn--" = true then none
            else some (Event.tld (strings.ToLower w.caseTable (w.FindString pat line)))) ∧
      (bufio.pieces resp.Body = List.splitOn '\n' resp.Body.data ∨
        bufio.pieces resp.Body ++ [[]] = List.splitOn '\n' resp.Body.data) ∧
      ['\n'].intercalate (List.splitOn '\n' resp.Body.data) = resp.Body.data ∧
      (∀ l ∈ List.splitOn '\n' resp.Body.data, '\n' ∉ l) ∧
      (∀ m, Event.err m ∉ fetchFromURL w url pat) ∧
      (resp.Body = "" → fetchFromURL w url pat = []) := by
  have hf : fetchFailed w url = false := by
    unfold fetchFailed
    rw [hget]
    simp [hok]
  obtain ⟨resp', hg', _, heq⟩ := fetchFromURL_of_ok pat hf
  rw [hget] at hg'
  injection hg' with hg'
  subst hg'
  refine ⟨?_, pieces_cases _, List.intercalate_splitOn _ _, ?_, ?_, ?_⟩
  · rw [heq, scanLines_of_fit _ hfit]
    congr 1
    funext line
    exact scanStep_eq w pat line
  · intro l hl hmem
    have := splitOnP_no_sep (fun x => x == '\n') resp.Body.data l hl '\n' hmem
    simp at this
  · intro m hm
    rw [err_mem_fetchFromURL hm] at hf
    cases hf
  · intro hb
    rw [heq, hb]
    rfl

/-- C10 as amended, at the body with carriage returns: the response is a success, both
pieces fit the buffer, and `com` and `net` are sent. -/
theorem fetchFromURL_entries_witness :
    (crlfWorld.Get ianaURL = .ok ⟨200, "200 OK", "com\r\nnet\r\n"⟩ ∧
        (∀ l ∈ bufio.pieces "com\r\nnet\r\n",
          (bytes (String.mk l)).length < bufio.MaxScanTokenSize)) ∧
      fetchFromURL crlfWorld ianaURL ianaPat = [Event.tld "com", Event.tld "net"] ∧
      fetchFromURL crlfWorld ianaURL ianaPat =
        ((bufio.pieces "com\r\nnet\r\n").map (fun l => String.mk (bufio.dropCR l))).filterMap
          (fun line =>
            if crlfWorld.FindString ianaPat line = "" ∨
                hasPrefixIgnoreCase crlfWorld.caseTable (crlfWorld.FindString ianaPat line)
                  "xn--" = true then none
            else some (Event.tld
              (strings.ToLower crlfWorld.caseTable (crlfWorld.FindString ianaPat line)))) :=
  ⟨⟨rfl, by decide⟩, by decide,
    (fetchFromURL_entries crlfWorld ianaURL ianaPat ⟨200, "200 OK", "com\r\nnet\r\n"⟩ rfl
      (by decide) (by decide)).1⟩

/-! ## Claims about `tldList` that hold under every schedule -/

/-- C2. Whatever the sources hold and however the goroutines are scheduled, a list
returned by `tldList` is strictly ascending in the string order, hence sorted and without
duplicates. -/
theorem tldList_strictly_ascending (w : World) (sched : List Action) (r : Ret)
    (l : List String) (h : tldList w sched = some r) (hl : r.tlds = some l) :
    l.Sorted (fun a b => bytes a < bytes b) ∧ l.Sorted (fun a b => bytes a ≤ bytes b) ∧
      l.Nodup := by
  obtain ⟨s, hr, hc⟩ := tldList_eq_some.mp h
  have hinv : Inv (fun _ => True) s :=
    run_induction Inv_step (start_Inv w _ (fun _ _ => trivial) (fun _ _ => trivial)) hr
  have hlt := (hinv.ret r l hc hl).1
  refine ⟨hlt, ?_, ?_⟩
  · exact List.Pairwise.imp (fun hab => le_of_lt hab) hlt
  · exact List.Pairwise.imp (fun hab heq => absurd hab (by rw [heq]; exact lt_irrefl _)) hlt

/-- C2 at the overlapping sources, the second fetcher finishing first. -/
theorem tldList_strictly_ascending_witness :
    tldList overlapWorld
          [.send 1, .merge, .send 0, .merge, .send 1, .merge, .done 1, .send 0, .merge,
            .done 0, .wake, .check, .collect ["org", "com", "net"]] =
        some ⟨some ["com", "net", "org"], some [ianaURL, pslURL], none⟩ ∧
      List.Sorted (fun a b => bytes a < bytes b) ["com", "net", "org"] ∧
      List.Sorted (fun a b => bytes a ≤ bytes b) ["com", "net", "org"] ∧
      ["com", "net", "org"].Nodup :=
  ⟨by decide,
    tldList_strictly_ascending overlapWorld
      [.send 1, .merge, .send 0, .merge, .send 1, .merge, .done 1, .send 0, .merge,
        .done 0, .wake, .check, .collect ["org", "com", "net"]]
      ⟨some ["com", "net", "org"], some [ianaURL, pslURL], none⟩ ["com", "net", "org"]
      (by decide) rfl⟩

/-- C4. Whatever the sources hold and however the goroutines are scheduled, no entry of a
list returned by `tldList` begins with `xn--` in any letter case, none is empty, and each is
its own lower-cased form.  The case tables enter through the fact that lower-casing a
lower-cased rune changes nothing. -/
theorem tldList_entries_clean (w : World)
    (htbl : ∀ c : Char, 127 < c.toNat →
      unicode.ToLower w.caseTable (w.caseTable c) = w.caseTable c)
    (sched : List Action) (r : Ret) (l : List String) (e : String)
    (h : tldList w sched = some r) (hl : r.tlds = some l) (he : e ∈ l) :
    hasPrefixIgnoreCase w.caseTable e "xn--" = false ∧ strings.HasPrefix e "xn--" = false ∧
      e ≠ "" ∧ strings.ToLower w.caseTable e = e := by
  obtain ⟨s, hr, hc⟩ := tldList_eq_some.mp h
  have hstart : Inv (Clean w.caseTable) (tldList.start w) := by
    apply start_Inv
    · intro t ht
      obtain ⟨resp, _, _, line, _, rfl, hne⟩ := tld_mem_fetchFromURL.mp ht
      exact cleanTld_clean w.caseTable htbl _ hne
    · intro t ht
      obtain ⟨resp, _, _, line, _, rfl, hne⟩ := tld_mem_fetchFromURL.mp ht
      exact cleanTld_clean w.caseTable htbl _ hne
  have hinv : Inv (Clean w.caseTable) s := run_induction Inv_step hstart hr
  obtain ⟨hne, hlow, hpre⟩ := (hinv.ret r l hc hl).2 e he
  refine ⟨hpre, ?_, hne, hlow⟩
  rw [hasPrefixIgnoreCase_xn, hlow] at hpre
  exact hpre

/-- C4 at the overlapping sources, for the entry `net`. -/
theorem tldList_entries_clean_witness :
    (∀ c : Char, 127 < c.toNat →
        unicode.ToLower overlapWorld.caseTable (overlapWorld.caseTable c) =
          overlapWorld.caseTable c) ∧
      tldList overlapWorld
          [.send 0, .merge, .send 0, .merge, .done 0, .send 1, .merge, .send 1, .merge,
            .done 1, .wake, .check, .collect ["com", "net", "org"]] =
        some ⟨some ["com", "net", "org"], some [ianaURL, pslURL], none⟩ ∧
      "net" ∈ ["com", "net", "org"] ∧
      hasPrefixIgnoreCase overlapWorld.caseTable "net" "xn--" = false ∧
      strings.HasPrefix "net" "xn--" = false ∧
      "net" ≠ "" ∧ strings.ToLower overlapWorld.caseTable "net" = "net" :=
  have htbl : ∀ c : Char, 127 < c.toNat →
      unicode.ToLower overlapWorld.caseTable (overlapWorld.caseTable c) =
        overlapWorld.caseTable c := fun c hc => by
    show unicode.ToLower (fun c => c) c = c
    unfold unicode.ToLower
    rw [if_neg (by omega)]
  ⟨htbl, by decide, by decide,
    tldList_entries_clean overlapWorld htbl
      [.send 0, .merge, .send 0, .merge, .done 0, .send 1, .merge, .send 1, .merge,
        .done 1, .wake, .check, .collect ["com", "net", "org"]]
      ⟨some ["com", "net", "org"], some [ianaURL, pslURL], none⟩ ["com", "net", "org"] "net"
      (by decide) rfl (by decide)⟩

/-- C9. When neither fetch fails, `tldList` does return, and under every schedule what it
returns carries no error and the source locations in launch order: the IANA list first,
the public-suffix list second, one element per source. -/
theorem tldList_source_locations (w : World) (h0 : fetchFailed w ianaURL = false)
    (h1 : fetchFailed w pslURL = false) :
    (∃ sched r, tldList w sched = some r) ∧
      ∀ sched r, tldList w sched = some r →
        r.err = none ∧ r.urls = some [ianaURL, pslURL] ∧
          r.urls = some ["https://data.iana.org/TLD/tlds-alpha-by-domain.txt",
            "https://publicsuffix.org/list/effective_tld_names.dat"] := by
  refine ⟨⟨quietSchedule w, quietResult w, tldList_quietSchedule w⟩, ?_⟩
  intro sched r h
  rcases tldList_shape h with ⟨_, hf | hf⟩ | ⟨l, rfl⟩
  · rw [h0] at hf
    cases hf
  · rw [h1] at hf
    cases hf
  · exact ⟨rfl, rfl, rfl⟩

/-- C9 at the overlapping sources, neither of which fails. -/
theorem tldList_source_locations_witness :
    (fetchFailed overlapWorld ianaURL = false ∧ fetchFailed overlapWorld pslURL = false) ∧
      (∃ sched r, tldList overlapWorld sched = some r) ∧
      ∀ sched r, tldList overlapWorld sched = some r →
        r.err = none ∧ r.urls = some [ianaURL, pslURL] ∧
          r.urls = some ["https://data.iana.org/TLD/tlds-alpha-by-domain.txt",
            "https://publicsuffix.org/list/effective_tld_names.dat"] :=
  ⟨by decide, tldList_source_locations overlapWorld (by decide) (by decide)⟩

/-! ## Claims about `tldList` that the missing synchronisation breaks -/

/-- C7, evaluated on the code.  First source `com`, `org`; second source refused.  After
the schedule below both fetchers have called `wg.Done()` and `wg.Wait()` has returned, the
merger holds the error it received from the second fetcher and has not yet set `anyError`,
and the coordinator has evaluated `if anyError` as false and stands before the loop over
`tldSet`.  So the coordinator does read before the merger has finished. -/
theorem coordinator_reads_before_merge :
    run (tldList.start oneFailsWorld)
        [.send 0, .merge, .send 0, .merge, .done 0, .send 1, .done 1, .wake, .check] =
      some { wg := 0
             urls := [ianaURL, pslURL]
             fetchers := [⟨[], true⟩, ⟨[], true⟩]
             held := some (Event.err ("could not fetch " ++ pslURL ++ ": connection refused"))
             tldSet := ["org", "com"]
             anyError := false
             coord := Coord.collecting } ∧
      ¬ ReadsAfterMerge oneFailsWorld := by
  refine ⟨by decide, fun h => ?_⟩
  have hrun : run (tldList.start oneFailsWorld)
      [.send 0, .merge, .send 0, .merge, .done 0, .send 1, .done 1, .wake] =
      some { wg := 0
             urls := [ianaURL, pslURL]
             fetchers := [⟨[], true⟩, ⟨[], true⟩]
             held := some (Event.err ("could not fetch " ++ pslURL ++ ": connection refused"))
             tldSet := ["org", "com"]
             anyError := false
             coord := Coord.woken } := by decide
  have hstep := h _ _ { wg := 0
                        urls := [ianaURL, pslURL]
                        fetchers := [⟨[], true⟩, ⟨[], true⟩]
                        held := some
                          (Event.err ("could not fetch " ++ pslURL ++ ": connection refused"))
                        tldSet := ["org", "com"]
                        anyError := false
                        coord := Coord.collecting } Action.check hrun (by decide) (Or.inl rfl)
  cases hstep

/-- C5, evaluated on the code at the claim's own example.  First source `com`, `org`;
second source refused.  Under the schedule below the coordinator evaluates `if anyError`
while the merger still holds the error; the merger sets the flag afterwards, and `tldList`
returns the list `com`, `org` and no error although a fetch failed. -/
theorem tldList_failed_fetch_unreported :
    fetchFailed oneFailsWorld pslURL = true ∧
      run (tldList.start oneFailsWorld)
          [.send 0, .merge, .send 0, .merge, .done 0, .send 1, .done 1, .wake, .check,
            .merge, .collect ["com", "org"]] =
        some { wg := 0
               urls := [ianaURL, pslURL]
               fetchers := [⟨[], true⟩, ⟨[], true⟩]
               held := none
               tldSet := ["org", "com"]
               anyError := true
               coord := Coord.returned ⟨some ["com", "org"], some [ianaURL, pslURL], none⟩ } ∧
      tldList oneFailsWorld
          [.send 0, .merge, .send 0, .merge, .done 0, .send 1, .done 1, .wake, .check,
            .merge, .collect ["com", "org"]] =
        some ⟨some ["com", "org"], some [ianaURL, pslURL], none⟩ := by
  decide

/-- C1, evaluated on the code at the claim's own example.  The first source yields the
tokens `COM`, `xn--abc`, `net`, the second `com`, `org`.  Under the schedule below the
coordinator ranges over `tldSet` while the merger still holds `org`, and `tldList` returns
`com`, `net`. -/
theorem tldList_overlap_entry_lost :
    (bufio.scanLines "COM\nxn--abc\nnet\n").map (overlapWorld.FindString ianaPat) =
        ["COM", "xn--abc", "net"] ∧
      (bufio.scanLines "com\norg\n").map (overlapWorld.FindString pslPat) = ["com", "org"] ∧
      run (tldList.start overlapWorld)
          [.send 0, .merge, .send 1, .merge, .send 0, .merge, .done 0, .send 1, .done 1,
            .wake, .check, .collect ["net", "com"]] =
        some { wg := 0
               urls := [ianaURL, pslURL]
               fetchers := [⟨[], true⟩, ⟨[], true⟩]
               held := some (Event.tld "org")
               tldSet := ["net", "com"]
               anyError := false
               coord := Coord.returned ⟨some ["com", "net"], some [ianaURL, pslURL], none⟩ } ∧
      tldList overlapWorld
          [.send 0, .merge, .send 1, .merge, .send 0, .merge, .done 0, .send 1, .done 1,
            .wake, .check, .collect ["net", "com"]] =
        some ⟨some ["com", "net"], some [ianaURL, pslURL], none⟩ := by
  decide

/-- C6, evaluated on the code.  Same sources, both fetched in full; the merger receives
the same four values in two different orders, and the coordinator goes on as soon as the
last fetcher has called `wg.Done()`.  The returned lists differ: each misses the value the
merger received last.  When every value is merged before the coordinator goes on, the list
is complete. -/
theorem tldList_depends_on_interleaving :
    tldList overlapWorld
          [.send 0, .merge, .send 0, .merge, .done 0, .send 1, .merge, .send 1, .done 1,
            .wake, .check, .collect ["net", "com"]] =
        some ⟨some ["com", "net"], some [ianaURL, pslURL], none⟩ ∧
      tldList overlapWorld
          [.send 1, .merge, .send 1, .merge, .done 1, .send 0, .merge, .send 0, .done 0,
            .wake, .check, .collect ["org", "com"]] =
        some ⟨some ["com", "org"], some [ianaURL, pslURL], none⟩ ∧
      tldList overlapWorld
          [.send 0, .merge, .send 0, .merge, .done 0, .send 1, .merge, .send 1, .merge,
            .done 1, .wake, .check, .collect ["org", "net", "com"]] =
        some ⟨some ["com", "net", "org"], some [ianaURL, pslURL], none⟩ ∧
      tldList overlapWorld
          [.send 1, .merge, .send 1, .merge, .done 1, .send 0, .merge, .send 0, .merge,
            .done 0, .wake, .check, .collect ["net", "org", "com"]] =
        some ⟨some ["com", "net", "org"], some [ianaURL, pslURL], none⟩ := by
  decide

end Tldsgen
